import Mathlib

/-!
Shallow embedding of the record-aggregation and search core of the
chromium-hist-bookmarks workflow (src/chrom_history.py, src/chrom_bookmarks.py),
together with theorems settling the specification claims about it.

Python tuples become Lean structures, Python dicts become association lists
built by an explicit update function, stdlib effects (shutil.copy2, sqlite3)
become explicit outcome parameters, and module-level configuration globals
become function arguments.
-/

set_option maxRecDepth 8000

namespace ChromCore

/-- A history row with provenance: the 7-element tuples
(url, title, visit_count, last_visit, browser, profile, icon_path)
built by sql_with_profile in chrom_history.py. -/
structure HistRecord where
  url : String
  title : String
  visitCount : Nat
  lastVisit : Int
  browser : String
  profile : String
  iconPath : Option String
deriving DecidableEq, Repr

/-- A raw 4-element history row (url, title, visit_count, last_visit) as
returned by sql in chrom_history.py before provenance is attached. -/
structure Row4 where
  url : String
  title : String
  visitCount : Nat
  lastVisit : Int
deriving DecidableEq, Repr

/-- A bookmark row with provenance: the 5-element tuples
(title, url, browser_name, profile_name, profile_icon_path)
built in main of chrom_bookmarks.py. -/
structure BmRecord where
  title : String
  url : String
  browser : String
  profile : String
  iconPath : Option String
deriving DecidableEq, Repr

/-! ### Python dict model

removeDuplicates in both source files builds a Python dict and returns its
values (history) or keys (bookmarks).  A Python dict is modelled as an
association list in first-insertion key order, where inserting an existing
key overwrites the stored value in place. -/

/-- One assignment d[k] = v on the association-list model of a Python dict:
if the key is already present, its value is replaced in place; otherwise the
pair is appended at the end. -/
def pyUpd {κ β : Type} [DecidableEq κ] : List (κ × β) → κ → β → List (κ × β)
  | [], k, v => [(k, v)]
  | (k', v') :: t, k, v => if k' = k then (k', v) :: t else (k', v') :: pyUpd t k v

/-- The Python dict comprehension keyed by key x, folded over the list in
iteration order. -/
def pyDict {κ β : Type} [DecidableEq κ] (key : β → κ) (li : List β) : List (κ × β) :=
  li.foldl (fun d x => pyUpd d (key x) x) []

/-- The values() view of the dict comprehension, which is what the history
removeDuplicates returns. -/
def pyDictValues {κ β : Type} [DecidableEq κ] (key : β → κ) (li : List β) : List β :=
  (pyDict key li).map Prod.snd

/-! ### Helper lemmas about the dict model -/

theorem pyUpd_map_fst {κ β : Type} [DecidableEq κ] (d : List (κ × β)) (k : κ) (v : β) :
    (pyUpd d k v).map Prod.fst =
      if k ∈ d.map Prod.fst then d.map Prod.fst else d.map Prod.fst ++ [k] := by
  induction d with
  | nil => simp [pyUpd]
  | cons p t ih =>
    obtain ⟨k', v'⟩ := p
    by_cases h : k' = k
    · subst h
      simp [pyUpd]
    · have hne : ¬ k = k' := fun hh => h hh.symm
      by_cases hm : k ∈ t.map Prod.fst
      · simp [pyUpd, h, ih, hm, hne]
      · simp [pyUpd, h, ih, hm, hne]

theorem pyUpd_of_not_mem {κ β : Type} [DecidableEq κ] {d : List (κ × β)} {k : κ} {v : β}
    (hk : k ∉ d.map Prod.fst) : pyUpd d k v = d ++ [(k, v)] := by
  induction d with
  | nil => simp [pyUpd]
  | cons p t ih =>
    obtain ⟨k', v'⟩ := p
    have h1 : ¬ k' = k := by
      intro hh
      exact hk (by simp [hh])
    have h2 : k ∉ t.map Prod.fst := by
      intro hh
      exact hk (by simp [hh])
    simp [pyUpd, h1, ih h2]

theorem pyUpd_length_le {κ β : Type} [DecidableEq κ] (d : List (κ × β)) (k : κ) (v : β) :
    (pyUpd d k v).length ≤ d.length + 1 := by
  induction d with
  | nil => simp [pyUpd]
  | cons p t ih =>
    obtain ⟨k', v'⟩ := p
    by_cases h : k' = k
    · simp [pyUpd, h]
    · simp only [pyUpd, h, if_false, List.length_cons]
      omega

theorem mem_pyUpd {κ β : Type} [DecidableEq κ] {d : List (κ × β)} {k : κ} {v : β}
    {p : κ × β} (hp : p ∈ pyUpd d k v) : p ∈ d ∨ p = (k, v) := by
  induction d with
  | nil =>
    simp [pyUpd] at hp
    right
    exact hp
  | cons q t ih =>
    obtain ⟨k', v'⟩ := q
    by_cases h : k' = k
    · subst h
      simp only [pyUpd, if_pos rfl] at hp
      rcases List.mem_cons.mp hp with h1 | h1
      · right
        simpa using h1
      · left
        exact List.mem_cons_of_mem _ h1
    · simp only [pyUpd, if_neg h] at hp
      rcases List.mem_cons.mp hp with h1 | h1
      · left
        simp [h1]
      · rcases ih h1 with h2 | h2
        · left
          exact List.mem_cons_of_mem _ h2
        · right
          exact h2

theorem pyDict_induct {κ β : Type} [DecidableEq κ] (key : β → κ)
    (P : List (κ × β) → Prop) (h0 : P [])
    (hstep : ∀ d x, P d → P (pyUpd d (key x) x)) :
    ∀ li : List β, P (pyDict key li) := by
  intro li
  suffices h : ∀ d, P d → P (li.foldl (fun d x => pyUpd d (key x) x) d) by
    exact h [] h0
  induction li with
  | nil =>
    intro d hd
    simpa using hd
  | cons x xs ih =>
    intro d hd
    exact ih _ (hstep d x hd)

theorem pyDict_fst_eq_key {κ β : Type} [DecidableEq κ] (key : β → κ) (li : List β) :
    ∀ p ∈ pyDict key li, p.1 = key p.2 := by
  refine pyDict_induct key (fun d => ∀ p ∈ d, p.1 = key p.2) (by simp) ?_ li
  intro d x hd p hp
  rcases mem_pyUpd hp with h | h
  · exact hd p h
  · subst h
    rfl

theorem pyDict_fst_nodup {κ β : Type} [DecidableEq κ] (key : β → κ) (li : List β) :
    ((pyDict key li).map Prod.fst).Nodup := by
  refine pyDict_induct key (fun d => (d.map Prod.fst).Nodup) (by simp) ?_ li
  intro d x hd
  rw [pyUpd_map_fst]
  by_cases hm : key x ∈ d.map Prod.fst
  · simpa [hm] using hd
  · simp [hm, List.nodup_append, hd]

theorem pyDict_length_le {κ β : Type} [DecidableEq κ] (key : β → κ) (li : List β) :
    (pyDict key li).length ≤ li.length := by
  suffices h : ∀ d : List (κ × β),
      (li.foldl (fun d x => pyUpd d (key x) x) d).length ≤ d.length + li.length by
    simpa [pyDict] using h []
  induction li with
  | nil =>
    intro d
    simp
  | cons x xs ih =>
    intro d
    calc (List.foldl (fun d x => pyUpd d (key x) x) (pyUpd d (key x) x) xs).length
        ≤ (pyUpd d (key x) x).length + xs.length := ih _
      _ ≤ (d.length + 1) + xs.length := by
          exact Nat.add_le_add_right (pyUpd_length_le d (key x) x) _
      _ = d.length + (x :: xs).length := by
          simp only [List.length_cons]
          omega

theorem pyDict_of_nodup_keys {κ β : Type} [DecidableEq κ] (key : β → κ) :
    ∀ (li : List β) (d : List (κ × β)),
      (∀ x ∈ li, key x ∉ d.map Prod.fst) → (li.map key).Nodup →
      li.foldl (fun d x => pyUpd d (key x) x) d = d ++ li.map (fun x => (key x, x)) := by
  intro li
  induction li with
  | nil =>
    intro d _ _
    simp
  | cons x xs ih =>
    intro d hdisj hnd
    have hx : key x ∉ d.map Prod.fst := hdisj x (List.mem_cons_self x xs)
    have hnd' : (xs.map key).Nodup := by
      simpa using hnd.of_cons
    have hxnot : key x ∉ xs.map key := by
      have := hnd
      simp only [List.map_cons, List.nodup_cons] at this
      exact this.1
    have hdisj' : ∀ y ∈ xs, key y ∉ (d ++ [(key x, x)]).map Prod.fst := by
      intro y hy
      simp only [List.map_append, List.mem_append, List.map_cons, List.map_nil,
        List.mem_singleton]
      rintro (h | h)
      · exact hdisj y (List.mem_cons_of_mem _ hy) h
      · exact hxnot (h ▸ List.mem_map_of_mem key hy)
    rw [List.foldl_cons, pyUpd_of_not_mem hx, ih (d ++ [(key x, x)]) hdisj' hnd']
    simp

theorem pyDict_eq_of_nodup {κ β : Type} [DecidableEq κ] (key : β → κ) (li : List β)
    (h : (li.map key).Nodup) : pyDict key li = li.map (fun x => (key x, x)) := by
  have := pyDict_of_nodup_keys key li [] (by simp) h
  simpa [pyDict] using this

theorem pyDictValues_map_key {κ β : Type} [DecidableEq κ] (key : β → κ) (li : List β) :
    (pyDictValues key li).map key = (pyDict key li).map Prod.fst := by
  unfold pyDictValues
  rw [List.map_map]
  refine List.map_congr_left ?_
  intro p hp
  exact (pyDict_fst_eq_key key li p hp).symm

theorem pyDictValues_key_nodup {κ β : Type} [DecidableEq κ] (key : β → κ) (li : List β) :
    ((pyDictValues key li).map key).Nodup := by
  rw [pyDictValues_map_key]
  exact pyDict_fst_nodup key li

theorem pyDictValues_of_nodup {κ β : Type} [DecidableEq κ] (key : β → κ) (li : List β)
    (h : (li.map key).Nodup) : pyDictValues key li = li := by
  unfold pyDictValues
  rw [pyDict_eq_of_nodup key li h, List.map_map]
  have hcomp : (Prod.snd ∘ fun x : β => (key x, x)) = fun x => x := rfl
  rw [hcomp, List.map_id']

theorem pyDictValues_idem {κ β : Type} [DecidableEq κ] (key : β → κ) (li : List β) :
    pyDictValues key (pyDictValues key li) = pyDictValues key li :=
  pyDictValues_of_nodup key _ (pyDictValues_key_nodup key li)

theorem pyDictValues_length_le {κ β : Type} [DecidableEq κ] (key : β → κ) (li : List β) :
    (pyDictValues key li).length ≤ li.length := by
  unfold pyDictValues
  rw [List.length_map]
  exact pyDict_length_le key li

theorem pyDict_append_singleton {κ β : Type} [DecidableEq κ] (key : β → κ)
    (l : List β) (x : β) :
    pyDict key (l ++ [x]) = pyUpd (pyDict key l) (key x) x := by
  simp [pyDict, List.foldl_append]

theorem mem_pyUpd_cases {κ β : Type} [DecidableEq κ] {d : List (κ × β)} {k : κ} {v : β}
    {p : κ × β} (hnd : (d.map Prod.fst).Nodup) (hp : p ∈ pyUpd d k v) :
    p = (k, v) ∨ (p ∈ d ∧ p.1 ≠ k) := by
  induction d with
  | nil =>
    simp only [pyUpd, List.mem_singleton] at hp
    left
    exact hp
  | cons q t ih =>
    obtain ⟨k', v'⟩ := q
    have hnd' : (t.map Prod.fst).Nodup := by
      simp only [List.map_cons, List.nodup_cons] at hnd
      exact hnd.2
    have hk' : k' ∉ t.map Prod.fst := by
      simp only [List.map_cons, List.nodup_cons] at hnd
      exact hnd.1
    by_cases h : k' = k
    · subst h
      simp only [pyUpd, if_pos rfl] at hp
      rcases List.mem_cons.mp hp with h1 | h1
      · left
        simpa using h1
      · right
        refine ⟨List.mem_cons_of_mem _ h1, ?_⟩
        intro hpk
        exact hk' (hpk ▸ List.mem_map_of_mem Prod.fst h1)
    · simp only [pyUpd, if_neg h] at hp
      rcases List.mem_cons.mp hp with h1 | h1
      · right
        refine ⟨by simp [h1], ?_⟩
        rw [h1]
        exact fun hh => h hh
      · rcases ih hnd' h1 with h2 | h2
        · left
          exact h2
        · right
          exact ⟨List.mem_cons_of_mem _ h2.1, h2.2⟩

theorem pyDict_getLast {κ β : Type} [DecidableEq κ] (key : β → κ) (li : List β) :
    ∀ p ∈ pyDict key li,
      (li.filter (fun x => decide (key x = p.1))).getLast? = some p.2 := by
  induction li using List.reverseRecOn with
  | nil =>
    intro p hp
    simp [pyDict] at hp
  | append_singleton l x ih =>
    intro p hp
    rw [pyDict_append_singleton] at hp
    rcases mem_pyUpd_cases (pyDict_fst_nodup key l) hp with h | h
    · subst h
      rw [List.filter_append]
      have hx : List.filter (fun y => decide (key y = key x)) [x] = [x] := by
        simp
      rw [hx, List.getLast?_concat]
    · obtain ⟨hmem, hne⟩ := h
      rw [List.filter_append]
      have hx : List.filter (fun y => decide (key y = p.1)) [x] = [] := by
        simp only [List.filter, decide_eq_true_eq]
        have : ¬ key x = p.1 := fun hh => hne hh.symm
        simp [this]
      rw [hx, List.append_nil]
      exact ih p hmem

theorem pyDict_fst_mem {κ β : Type} [DecidableEq κ] (key : β → κ) (li : List β) (k : κ) :
    k ∈ (pyDict key li).map Prod.fst ↔ k ∈ li.map key := by
  suffices h : ∀ d : List (κ × β),
      k ∈ (li.foldl (fun d x => pyUpd d (key x) x) d).map Prod.fst ↔
        k ∈ d.map Prod.fst ∨ k ∈ li.map key by
    simpa [pyDict] using h []
  induction li with
  | nil =>
    intro d
    simp
  | cons x xs ih =>
    intro d
    rw [List.foldl_cons, ih (pyUpd d (key x) x), pyUpd_map_fst]
    by_cases hm : key x ∈ d.map Prod.fst
    · simp only [if_pos hm, List.map_cons, List.mem_cons]
      constructor
      · rintro (h | h)
        · exact Or.inl h
        · exact Or.inr (Or.inr h)
      · rintro (h | h | h)
        · exact Or.inl h
        · exact Or.inl (h ▸ hm)
        · exact Or.inr h
    · simp only [if_neg hm, List.map_cons, List.mem_cons, List.mem_append,
        List.mem_singleton]
      tauto

/-! ### The dedup functions of the two pipelines -/

/-- The dedup key the history removeDuplicates uses on 7-element rows:
the first two tuple components (a, b), that is (url, title). -/
def histKey (r : HistRecord) : String × String := (r.url, r.title)

/-- removeDuplicates of chrom_history.py on the 7-element rows the pipeline
feeds it: a dict comprehension keyed by (a, b) = (url, title), then values(). -/
def removeDuplicates (li : List HistRecord) : List HistRecord :=
  pyDictValues histKey li

/-- removeDuplicates of chrom_history.py on raw 4-element rows (the branch
taken when entries carry no profile info): the dict is keyed by b alone. -/
def removeDuplicates4 (li : List Row4) : List Row4 :=
  pyDictValues (fun r => r.title) li

/-- removeDuplicates of chrom_bookmarks.py: list(dict.fromkeys(li)), the keys
of a dict keyed by the whole row, in first-insertion order. -/
def removeDuplicatesBm {β : Type} [DecidableEq β] (li : List β) : List β :=
  (pyDict id li).map Prod.fst

theorem removeDuplicatesBm_eq_values {β : Type} [DecidableEq β] (li : List β) :
    removeDuplicatesBm li = pyDictValues id li := by
  unfold removeDuplicatesBm pyDictValues
  refine List.map_congr_left ?_
  intro p hp
  exact pyDict_fst_eq_key id li p hp

theorem removeDuplicatesBm_nodup {β : Type} [DecidableEq β] (li : List β) :
    (removeDuplicatesBm li).Nodup := by
  have h := pyDictValues_key_nodup id li
  rw [removeDuplicatesBm_eq_values]
  simpa using h

theorem removeDuplicatesBm_mem {β : Type} [DecidableEq β] (li : List β) (r : β) :
    r ∈ removeDuplicatesBm li ↔ r ∈ li := by
  unfold removeDuplicatesBm
  rw [pyDict_fst_mem id li r]
  simp

theorem removeDuplicatesBm_of_nodup {β : Type} [DecidableEq β] {li : List β}
    (h : li.Nodup) : removeDuplicatesBm li = li := by
  rw [removeDuplicatesBm_eq_values]
  exact pyDictValues_of_nodup id li (by simpa using h)

theorem removeDuplicatesBm_length_le {β : Type} [DecidableEq β] (li : List β) :
    (removeDuplicatesBm li).length ≤ li.length := by
  rw [removeDuplicatesBm_eq_values]
  exact pyDictValues_length_le id li

/-- Dedup leaves a list with pairwise distinct (url, title) keys untouched. -/
theorem removeDuplicates_of_nodup {li : List HistRecord}
    (h : (li.map histKey).Nodup) : removeDuplicates li = li :=
  pyDictValues_of_nodup histKey li h

/-! ### Concrete rows used to settle the dedup claims -/

/-- Two history rows sharing the (url, title) key but differing elsewhere. -/
def rowA : HistRecord :=
  ⟨"https://example.com", "Example", 5, 1000, "chrome", "Default", none⟩

/-- Same key as rowA, different visit statistics and provenance. -/
def rowB : HistRecord :=
  ⟨"https://example.com", "Example", 9, 2000, "brave", "Work", none⟩

/-- Two bookmark rows sharing (title, url) but differing in provenance. -/
def bmA : BmRecord := ⟨"Example", "https://example.com", "chrome", "Default", none⟩

/-- Same (title, url) as bmA, different provenance. -/
def bmB : BmRecord := ⟨"Example", "https://example.com", "brave", "Work", none⟩

/-- C2 counterexample: on a (url, title) collision the history dedup keeps the
LAST occurrence, not the first; and the bookmark dedup keys on the whole row,
so two rows sharing (title, url) but differing in provenance both survive. -/
theorem C2_counterexample :
    removeDuplicates [rowA, rowB] = [rowB] ∧ rowB ≠ rowA ∧
    removeDuplicatesBm [bmA, bmB] = [bmA, bmB] ∧
    bmA.title = bmB.title ∧ bmA.url = bmB.url ∧ bmA ≠ bmB := by
  decide

/-- C2 (amended): after the history dedup no two records share the
(url, title) key, and the record kept for each key is the LAST input record
with that key; the bookmark dedup is keyed by the whole row, so its output
has no duplicate rows and exactly the input rows as members, while rows that
share (title, url) but differ in provenance all survive. -/
theorem C2_dedup_key_last_wins :
    (∀ li : List HistRecord,
        ((removeDuplicates li).map histKey).Nodup ∧
        ∀ r ∈ removeDuplicates li,
          (li.filter (fun x => decide (histKey x = histKey r))).getLast? = some r) ∧
    (∀ li : List BmRecord,
        (removeDuplicatesBm li).Nodup ∧
        ∀ r : BmRecord, r ∈ removeDuplicatesBm li ↔ r ∈ li) := by
  constructor
  · intro li
    refine ⟨pyDictValues_key_nodup histKey li, ?_⟩
    intro r hr
    obtain ⟨p, hp, hpr⟩ := List.mem_map.mp hr
    have h1 := pyDict_getLast histKey li p hp
    have h2 := pyDict_fst_eq_key histKey li p hp
    rw [h2, hpr] at h1
    exact h1
  · intro li
    exact ⟨removeDuplicatesBm_nodup li, removeDuplicatesBm_mem li⟩

/-- Witness for C2_dedup_key_last_wins at a concrete input. -/
theorem C2_dedup_witness :
    ([rowA, rowB].filter (fun x => decide (histKey x = histKey rowB))).getLast? =
      some rowB :=
  (C2_dedup_key_last_wins.1 [rowA, rowB]).2 rowB (by decide)

/-- C9: both dedup functions are idempotent and non-increasing, for the
7-element and 4-element history variants and the bookmark variant. -/
theorem C9_dedup_idempotent :
    (∀ li : List HistRecord,
        removeDuplicates (removeDuplicates li) = removeDuplicates li ∧
        (removeDuplicates li).length ≤ li.length) ∧
    (∀ li : List Row4,
        removeDuplicates4 (removeDuplicates4 li) = removeDuplicates4 li ∧
        (removeDuplicates4 li).length ≤ li.length) ∧
    (∀ li : List BmRecord,
        removeDuplicatesBm (removeDuplicatesBm li) = removeDuplicatesBm li ∧
        (removeDuplicatesBm li).length ≤ li.length) := by
  refine ⟨fun li => ⟨?_, ?_⟩, fun li => ⟨?_, ?_⟩, fun li => ⟨?_, ?_⟩⟩
  · exact pyDictValues_idem histKey li
  · exact pyDictValues_length_le histKey li
  · exact pyDictValues_idem (fun r => r.title) li
  · exact pyDictValues_length_le (fun r => r.title) li
  · exact removeDuplicatesBm_of_nodup (removeDuplicatesBm_nodup li)
  · exact removeDuplicatesBm_length_le li

/-! ### Python string primitives, modelled at the character-list level -/

/-- Python sep-split of a character list on a separator predicate: the chunks
between separator characters, empty chunks included (str.split with an
explicit separator). -/
def splitPred (p : Char → Bool) : List Char → List (List Char)
  | [] => [[]]
  | c :: cs =>
    match splitPred p cs with
    | [] => [[]]
    | h :: t => if p c then [] :: h :: t else (c :: h) :: t

/-- Python s.split(sep) for a single-character separator. -/
def pySplitChar (sep : Char) (s : String) : List String :=
  (splitPred (fun c => c == sep) s.data).map (fun l => String.mk l)

/-- Python s.split() with no argument: whitespace chunks, empties dropped. -/
def pySplitWhitespace (s : String) : List String :=
  ((splitPred (fun c => c.isWhitespace) s.data).filter (fun l => !l.isEmpty)).map
    (fun l => String.mk l)

/-- Python c in s for a single character c. -/
def pyContainsChar (s : String) (c : Char) : Bool := s.data.contains c

/-- Python str.lower, character-wise. -/
def pyLowerChars (s : String) : List Char := s.data.map Char.toLower

/-- The Python membership test st.lower() in str(e).lower(): case-insensitive
substring containment. -/
def pyInStr (needle hay : String) : Bool :=
  decide (pyLowerChars needle <:+: pyLowerChars hay)

/-- unicodedata.normalize with form NFC (canonical composition), applied to
each search term in get_search_terms.  Embedded as the identity map: NFC is
the identity on composed strings, and none of the operator-selection or
matching claims depend on the composition tables. -/
def normalizeNFC (s : String) : String := s

theorem map_normalizeNFC (l : List String) : l.map normalizeNFC = l :=
  List.map_id' l

/-! ### The query engine of chrom_history.py -/

/-- get_search_terms of chrom_history.py: split on the ampersand when present,
else on the pipe when present, else on whitespace; then NFC-normalize each
term. -/
def get_search_terms (search : String) : List String :=
  let ts :=
    if pyContainsChar search '&' then pySplitChar '&' search
    else if pyContainsChar search '|' then pySplitChar '|' search
    else pySplitWhitespace search
  ts.map normalizeNFC

/-- is_in_tuple_with_profile inside search_in_tuples_with_profile: the term
matches when it occurs in one of the first two tuple elements (url, title). -/
def is_in_tuple_with_profile (t : HistRecord) (st : String) : Bool :=
  [t.url, t.title].any (fun e => pyInStr st e)

/-- search_in_tuples_with_profile of chrom_history.py.  Note the evaluation
branch tests the pipe BEFORE the ampersand, while get_search_terms splits on
the ampersand first.  The module-level search_operator_default is the
defaultAnd argument. -/
def search_in_tuples_with_profile (tuples : List HistRecord) (search : String)
    (defaultAnd : Bool) : List HistRecord :=
  let terms := get_search_terms search
  tuples.filter (fun t =>
    if pyContainsChar search '|' then
      terms.any (fun ts => is_in_tuple_with_profile t ts)
    else if pyContainsChar search '&' then
      terms.all (fun ts => is_in_tuple_with_profile t ts)
    else if defaultAnd then
      terms.all (fun ts => is_in_tuple_with_profile t ts)
    else
      terms.any (fun ts => is_in_tuple_with_profile t ts))

/-! ### The query engine of chrom_bookmarks.py -/

/-- is_in_tuple inside match of chrom_bookmarks.py: the term matches when it
occurs in any element of the (title, url) tuple. -/
def is_in_tuple (t : String × String) (st : String) : Bool :=
  [t.1, t.2].any (fun e => pyInStr st e)

/-- match of chrom_bookmarks.py.  The source selects the term list and an
operator tag in one if/elif/else and branches on the tag inside the loop;
the two collapse to the same function, written here with the all/any
evaluation inlined into each branch.  No NFC normalization is applied. -/
def bmMatch (search_term : String) (results : List (String × String))
    (defaultAnd : Bool) : List (String × String) :=
  if pyContainsChar search_term '&' then
    let terms := pySplitChar '&' search_term
    results.filter (fun r => terms.all (fun ts => is_in_tuple r ts))
  else if pyContainsChar search_term '|' then
    let terms := pySplitChar '|' search_term
    results.filter (fun r => terms.any (fun ts => is_in_tuple r ts))
  else
    let terms := pySplitWhitespace search_term
    if defaultAnd then results.filter (fun r => terms.all (fun ts => is_in_tuple r ts))
    else results.filter (fun r => terms.any (fun ts => is_in_tuple r ts))

/-! ### The operator selection the spec describes (refinement reference) -/

/-- Written from the spec sentence on tokenization and operator selection,
NOT from the source: ampersand present means split on it and force AND; else
pipe present means split on it and force OR; else whitespace terms with the
configured default operator.  Returns the term list and whether the
combinator is AND. -/
def specSelect (search : String) (defaultAnd : Bool) : List String × Bool :=
  if pyContainsChar search '&' then ((pySplitChar '&' search).map normalizeNFC, true)
  else if pyContainsChar search '|' then
    ((pySplitChar '|' search).map normalizeNFC, false)
  else ((pySplitWhitespace search).map normalizeNFC, defaultAnd)

/-- The history matcher the spec describes: filter with the operator chosen
by specSelect. -/
def specHistMatch (tuples : List HistRecord) (search : String)
    (defaultAnd : Bool) : List HistRecord :=
  let p := specSelect search defaultAnd
  tuples.filter (fun t =>
    if p.2 then p.1.all (fun ts => is_in_tuple_with_profile t ts)
    else p.1.any (fun ts => is_in_tuple_with_profile t ts))

/-- The bookmark matcher the spec describes: filter with the operator chosen
by specSelect. -/
def specBmMatch (results : List (String × String)) (search : String)
    (defaultAnd : Bool) : List (String × String) :=
  let p := specSelect search defaultAnd
  results.filter (fun r =>
    if p.2 then p.1.all (fun ts => is_in_tuple r ts)
    else p.1.any (fun ts => is_in_tuple r ts))

/-- A history row matching the term a but not the term b|c. -/
def rowAmp : HistRecord := ⟨"u", "xa", 1, 0, "chrome", "Default", none⟩

/-- C3 counterexample: for the query a&b|c, containing both operators, the
history matcher splits on the ampersand but evaluates with OR (the pipe
branch is tested first in the loop), so a record matching only the first
term is kept even though the term b|c does not match: the claimed
every-term-must-match behavior does not hold. -/
theorem C3_counterexample :
    get_search_terms "a&b|c" = ["a", "b|c"] ∧
    is_in_tuple_with_profile rowAmp "b|c" = false ∧
    search_in_tuples_with_profile [rowAmp] "a&b|c" true = [rowAmp] := by
  decide

/-- C3 (amended): the bookmark matcher follows the stated priority exactly
(ampersand forces AND, else pipe forces OR, else the configured default).
The history matcher also follows it whenever the query does not contain both
operators; but on a query containing both, it splits on the ampersand and
evaluates with OR, so not every resulting term must match. -/
theorem C3_operator_selection :
    (∀ (search : String) (results : List (String × String)) (d : Bool),
        bmMatch search results d = specBmMatch results search d) ∧
    (∀ (search : String) (tuples : List HistRecord) (d : Bool),
        ¬(pyContainsChar search '&' = true ∧ pyContainsChar search '|' = true) →
        search_in_tuples_with_profile tuples search d = specHistMatch tuples search d) ∧
    (∀ (search : String) (tuples : List HistRecord) (d : Bool),
        pyContainsChar search '&' = true → pyContainsChar search '|' = true →
        search_in_tuples_with_profile tuples search d =
          tuples.filter (fun t =>
            ((pySplitChar '&' search).map normalizeNFC).any
              (fun ts => is_in_tuple_with_profile t ts))) := by
  refine ⟨?_, ?_, ?_⟩
  · intro search results d
    by_cases hamp : pyContainsChar search '&'
    · simp [bmMatch, specBmMatch, specSelect, hamp, map_normalizeNFC]
    · by_cases hpipe : pyContainsChar search '|'
      · simp [bmMatch, specBmMatch, specSelect, hamp, hpipe, map_normalizeNFC]
      · by_cases hd : d
        · simp [bmMatch, specBmMatch, specSelect, hamp, hpipe, hd, map_normalizeNFC]
        · simp [bmMatch, specBmMatch, specSelect, hamp, hpipe, hd, map_normalizeNFC]
  · intro search tuples d hnot
    by_cases hamp : pyContainsChar search '&'
    · have hpipe : ¬ pyContainsChar search '|' = true := fun hh => hnot ⟨hamp, hh⟩
      simp [search_in_tuples_with_profile, specHistMatch, specSelect,
        get_search_terms, hamp, hpipe]
    · by_cases hpipe : pyContainsChar search '|'
      · simp [search_in_tuples_with_profile, specHistMatch, specSelect,
          get_search_terms, hamp, hpipe]
      · by_cases hd : d
        · simp [search_in_tuples_with_profile, specHistMatch, specSelect,
            get_search_terms, hamp, hpipe, hd]
        · simp [search_in_tuples_with_profile, specHistMatch, specSelect,
            get_search_terms, hamp, hpipe, hd]
  · intro search tuples d hamp hpipe
    simp [search_in_tuples_with_profile, get_search_terms, hamp, hpipe]

/-- Witness for C3_operator_selection at the query a&b|c. -/
theorem C3_witness :
    search_in_tuples_with_profile [rowAmp] "a&b|c" true =
      List.filter (fun t =>
        ((pySplitChar '&' "a&b|c").map normalizeNFC).any
          (fun ts => is_in_tuple_with_profile t ts)) [rowAmp] :=
  C3_operator_selection.2.2 "a&b|c" [rowAmp] true (by decide) (by decide)

/-- A history row used for the empty-query claim. -/
def rowPlain : HistRecord := ⟨"u", "t", 0, 0, "chrome", "Default", none⟩

/-- C4 counterexample: with the default operator configured to OR, the empty
query matches NOTHING (any over zero terms is false), in both matchers; so
the claim that the empty query matches every record under both
configurations is false. -/
theorem C4_counterexample :
    search_in_tuples_with_profile [rowPlain] "" false = [] ∧
    bmMatch "" [("t", "u")] false = [] := by
  decide

theorem search_empty_and (tuples : List HistRecord) :
    search_in_tuples_with_profile tuples "" true = tuples := by
  simp [search_in_tuples_with_profile, get_search_terms, pyContainsChar,
    pySplitWhitespace, splitPred]

theorem search_empty_or (tuples : List HistRecord) :
    search_in_tuples_with_profile tuples "" false = [] := by
  simp [search_in_tuples_with_profile, get_search_terms, pyContainsChar,
    pySplitWhitespace, splitPred]

theorem bmMatch_empty_and (results : List (String × String)) :
    bmMatch "" results true = results := by
  simp [bmMatch, pyContainsChar, pySplitWhitespace, splitPred]

theorem bmMatch_empty_or (results : List (String × String)) :
    bmMatch "" results false = [] := by
  simp [bmMatch, pyContainsChar, pySplitWhitespace, splitPred]

/-- C4 (amended): the empty query yields an empty term list; with default
AND it matches every record, with default OR it matches none, in both the
history and the bookmark matcher. -/
theorem C4_empty_query :
    (∀ tuples : List HistRecord,
        search_in_tuples_with_profile tuples "" true = tuples ∧
        search_in_tuples_with_profile tuples "" false = []) ∧
    (∀ results : List (String × String),
        bmMatch "" results true = results ∧ bmMatch "" results false = []) :=
  ⟨fun tuples => ⟨search_empty_and tuples, search_empty_or tuples⟩,
   fun results => ⟨bmMatch_empty_and results, bmMatch_empty_or results⟩⟩

/-! ### The snapshot extractor sql of chrom_history.py

The function copies the History file to a fresh /tmp path, queries the copy,
and removes the copy.  The two stdlib operations that can fail are injected
as explicit outcome fields: copyError is the OSError shutil.copy2 may raise,
queryError is the sqlite3.Error the query may raise. -/

/-- The failure injections and the rows a run of sql would fetch. -/
structure SqlEnv where
  copyError : Option String
  queryError : Option String
  rows : List Row4
deriving DecidableEq, Repr

/-- How a call of sql terminates: a normal return, a process exit via
sys.exit, or an uncaught exception propagating to the caller. -/
inductive SqlOutcome where
  | ok (rows : List Row4)
  | exited (code : Nat)
  | raised (msg : String)
deriving DecidableEq, Repr

/-- sql of chrom_history.py as an outcome function.  A copy error is an
OSError: the except clause only matches sqlite3.Error, so it propagates out
uncaught.  A query error is caught, logged, and answered with sys.exit(1).
Only when both steps succeed are the fetched rows returned. -/
def sql (env : SqlEnv) : SqlOutcome :=
  match env.copyError with
  | some m => SqlOutcome.raised m
  | none =>
    match env.queryError with
    | some _ => SqlOutcome.exited 1
    | none => SqlOutcome.ok env.rows

/-- Whether a run of sql leaves its /tmp copy behind.  The copy exists once
shutil.copy2 succeeds, and os.remove sits after fetchall inside the try
block, so it runs only when the query also succeeds. -/
def sqlTempLeftBehind (env : SqlEnv) : Bool :=
  match env.copyError with
  | some _ => false
  | none =>
    match env.queryError with
    | some _ => true
    | none => false

/-- A run whose copy and query both succeed. -/
def envOk : SqlEnv := ⟨none, none, [⟨"https://a.com", "A", 3, 7⟩]⟩

/-- A run whose query raises sqlite3.Error. -/
def envQueryFail : SqlEnv := ⟨none, some "database is locked", []⟩

/-- A run whose file copy raises an OSError. -/
def envCopyFail : SqlEnv := ⟨some "copy failed", none, []⟩

/-- C1 counterexample: a query error does NOT yield an empty row list for the
source; sql answers it with sys.exit(1), killing the process, and a copy
error is not caught at all and propagates.  Both per-source failures are
fatal to the aggregation. -/
theorem C1_counterexample :
    sql envQueryFail = SqlOutcome.exited 1 ∧
    sql envQueryFail ≠ SqlOutcome.ok [] ∧
    sql envCopyFail = SqlOutcome.raised "copy failed" := by
  decide

/-- C1 (amended): a sqlite3 query error during extraction is caught and
logged but then terminates the process with exit code 1; a file-copy error
is not caught and propagates out of the extractor; only a fully successful
run returns its rows.  Per-source failures are therefore fatal, not
degraded to an empty row list. -/
theorem C1_failure_policy :
    ∀ env : SqlEnv,
      (env.copyError = none → env.queryError = none → sql env = SqlOutcome.ok env.rows) ∧
      (∀ m, env.copyError = none → env.queryError = some m →
        sql env = SqlOutcome.exited 1) ∧
      (∀ m, env.copyError = some m → sql env = SqlOutcome.raised m) := by
  intro env
  obtain ⟨ce, qe, rows⟩ := env
  cases ce <;> cases qe <;> simp [sql]

/-- Witness for C1_failure_policy at a concrete failing run. -/
theorem C1_witness : sql envCopyFail = SqlOutcome.raised "copy failed" :=
  (C1_failure_policy envCopyFail).2.2 "copy failed" rfl

/-- C5 counterexample: the run whose query fails leaves its /tmp copy
behind, so the temporary file is NOT deleted on every exit path. -/
theorem C5_counterexample : sqlTempLeftBehind envQueryFail = true := by
  decide

/-- C5 (amended): the temporary copy survives a run exactly when the copy
succeeded and the query then failed; it is removed only on the success
path (and never exists when the copy itself fails). -/
theorem C5_temp_cleanup :
    ∀ env : SqlEnv,
      sqlTempLeftBehind env = true ↔ env.copyError = none ∧ env.queryError ≠ none := by
  intro env
  obtain ⟨ce, qe, rows⟩ := env
  cases ce <;> cases qe <;> simp [sqlTempLeftBehind]

/-- Witness for C5_temp_cleanup at a concrete successful run. -/
theorem C5_witness : sqlTempLeftBehind envOk ≠ true := by
  intro hcontra
  have h := (C5_temp_cleanup envOk).mp hcontra
  simp [envOk] at h

/-! ### Timestamp normalization (the SELECT expressions in sql) -/

/-- Proleptic Gregorian leap-year rule. -/
def isLeapYear (y : Nat) : Bool := (y % 4 == 0 && y % 100 != 0) || y % 400 == 0

/-- Days from January 1 of year a to January 1 of year b (a ≤ b). -/
def daysBetweenYears (a b : Nat) : Nat :=
  ((List.range (b - a)).map (fun i => if isLeapYear (a + i) then 366 else 365)).sum

/-- The offset, in seconds, that converts a count of seconds since
January 1 of year a into a count since January 1 of year b: the epoch_offset
of the spec formula, a negative number when a precedes b. -/
def specEpochOffset (a b : Nat) : Int := -((daysBetweenYears a b * 86400 : Nat) : Int)

/-- The value SQLite computes for strftime of the percent-s format at
1601-01-01: the Unix timestamp of that calendar date, embedded as the
constant the query arithmetic uses. -/
def strftime_s_1601 : Int := -11644473600

/-- The Chromium branch of the SELECT in sql:
urls.last_visit_time/1000000 + strftime of 1601-01-01.  last_visit_time is
a nonnegative microsecond count and SQLite integer division truncates, so
the division is Nat division. -/
def chromiumLastVisitToEpoch (v : Nat) : Int :=
  ((v / 1000000 : Nat) : Int) + strftime_s_1601

/-- The Safari branch of the SELECT in sql:
history_visits.visit_time + 978307200. -/
def safariVisitToEpoch (t : Int) : Int := t + 978307200

/-- C7: the Chromium conversion equals the spec formula with the true
1601-to-1970 offset (which is -11644473600, the strftime value), and the
Safari conversion adds 978307200, which is exactly the 1970-to-2001 offset. -/
theorem C7_timestamp_conversion :
    (∀ v : Nat, chromiumLastVisitToEpoch v =
      ((v / 1000000 : Nat) : Int) + specEpochOffset 1601 1970) ∧
    strftime_s_1601 = specEpochOffset 1601 1970 ∧
    strftime_s_1601 = -11644473600 ∧
    (∀ t : Int, safariVisitToEpoch t = t + 978307200) ∧
    (daysBetweenYears 1970 2001 * 86400 = 978307200) := by
  have h : specEpochOffset 1601 1970 = strftime_s_1601 := by decide
  refine ⟨?_, h.symm, rfl, fun t => rfl, by decide⟩
  intro v
  rw [chromiumLastVisitToEpoch, h]

/-! ### The domain filter remove_ignored_domains of chrom_history.py -/

/-- The raw Python substring test i in r[0]: no case folding here. -/
def pyInRaw (needle hay : String) : Bool := decide (needle.data <:+: hay.data)

/-- The inner for-loop over the ignore list for one record r: the first
domain occurring in r.url breaks with inner_result = None; when no domain
matches, inner_result holds the record. -/
def ignoreLoop (r : HistRecord) : List String → Option HistRecord
  | [] => some r
  | i :: rest => if pyInRaw i r.url then none else ignoreLoop r rest

/-- remove_ignored_domains of chrom_history.py: with a non-empty ignore list
it keeps the records whose inner loop ends with a truthy inner_result; with
an empty list it returns the input unchanged. -/
def remove_ignored_domains (results : List HistRecord)
    (ignored : List String) : List HistRecord :=
  if 0 < ignored.length then results.filterMap (fun r => ignoreLoop r ignored)
  else results

/-- The guard in get_histories: the module-level ignored_domains is None when
the environment variable is unset and a list otherwise, and the filter runs
only when that value is truthy (non-None and non-empty). -/
def applyIgnored (results : List HistRecord)
    (ignored : Option (List String)) : List HistRecord :=
  match ignored with
  | none => results
  | some l => if l.isEmpty then results else remove_ignored_domains results l

theorem ignoreLoop_eq (r : HistRecord) (l : List String) :
    ignoreLoop r l = if l.any (fun i => pyInRaw i r.url) then none else some r := by
  induction l with
  | nil => simp [ignoreLoop]
  | cons i rest ih =>
    by_cases h : pyInRaw i r.url
    · simp [ignoreLoop, h]
    · simp [ignoreLoop, h, ih]

theorem filterMap_ite {α : Type} (c : α → Bool) (l : List α) :
    l.filterMap (fun r => if c r then none else some r) =
      l.filter (fun r => !(c r)) := by
  induction l with
  | nil => rfl
  | cons x xs ih =>
    by_cases h : c x
    · simp [h, ih]
    · simp [h, ih]

theorem remove_ignored_domains_eq_filter (results : List HistRecord)
    (ignored : List String) :
    remove_ignored_domains results ignored =
      results.filter (fun r => !(ignored.any (fun i => pyInRaw i r.url))) := by
  cases ignored with
  | nil => simp [remove_ignored_domains]
  | cons i rest =>
    simp only [remove_ignored_domains, List.length_cons, Nat.zero_lt_succ, if_pos]
    simp only [ignoreLoop_eq]
    exact filterMap_ite _ results

/-- C8: a record whose url contains a listed substring is dropped; the
filter is exactly list filtering on the absence of any listed substring (so
untouched records pass through in order); and an empty or absent ignore
list is a no-op both in the filter itself and behind the pipeline guard. -/
theorem C8_domain_filter :
    (∀ (results : List HistRecord) (ignored : List String) (r : HistRecord),
        r ∈ results → (∃ i ∈ ignored, pyInRaw i r.url = true) →
        r ∉ remove_ignored_domains results ignored) ∧
    (∀ (results : List HistRecord) (ignored : List String),
        remove_ignored_domains results ignored =
          results.filter (fun r => !(ignored.any (fun i => pyInRaw i r.url)))) ∧
    (∀ results : List HistRecord,
        remove_ignored_domains results [] = results ∧
        applyIgnored results none = results ∧
        applyIgnored results (some []) = results) := by
  refine ⟨?_, remove_ignored_domains_eq_filter, ?_⟩
  · intro results ignored r hr hex hmem
    rw [remove_ignored_domains_eq_filter] at hmem
    have hcond := (List.mem_filter.mp hmem).2
    obtain ⟨i, hi, hp⟩ := hex
    have hany : ignored.any (fun i => pyInRaw i r.url) = true :=
      List.any_eq_true.mpr ⟨i, hi, hp⟩
    rw [hany] at hcond
    simp at hcond
  · intro results
    refine ⟨by simp [remove_ignored_domains], rfl, by simp [applyIgnored]⟩

/-- A history row whose url contains the ignored substring goo. -/
def rowIgn : HistRecord := ⟨"https://google.com", "G", 1, 0, "chrome", "Default", none⟩

/-- Witness for C8_domain_filter at a concrete record and ignore list. -/
theorem C8_witness : rowIgn ∉ remove_ignored_domains [rowIgn] ["goo"] :=
  C8_domain_filter.1 [rowIgn] ["goo"] rowIgn (by decide) (by decide)

/-! ### Sorting and truncation in get_histories -/

/-- Modelled from the spec: Tools.sortListTuple of the Alfred3 helper module,
which is not under src/ — the spec requires a stable sort, descending by the
selected tuple element; embedded as a stable merge sort with the
larger-key-first comparison. -/
def sortListTuple (li : List HistRecord) (key : HistRecord → Int) : List HistRecord :=
  li.mergeSort (fun a b => decide (key b ≤ key a))

/-- The sort key get_histories selects: tuple element 3 (last_visit) when
sort_recent is configured, element 2 (visit_count) otherwise. -/
def histSortKey (sortRecent : Bool) (r : HistRecord) : Int :=
  if sortRecent then r.lastVisit else (r.visitCount : Int)

/-- get_histories of chrom_history.py after the thread-pool fan-out: the
thread pool only concatenates the per-source rows, so the merged list is
taken as the argument here; the module-level configuration globals are the
remaining arguments.  The merged rows are searched, deduplicated,
domain-filtered behind the truthiness guard, sorted, and truncated to 30
after sorting. -/
def get_histories (merged : List HistRecord) (query : String) (defaultAnd : Bool)
    (ignored : Option (List String)) (sortRecent : Bool) : List HistRecord :=
  let results := search_in_tuples_with_profile merged query defaultAnd
  let results := removeDuplicates results
  let results := applyIgnored results ignored
  let results := sortListTuple results (histSortKey sortRecent)
  results.take 30

theorem descLe_trans (key : HistRecord → Int) :
    ∀ a b c : HistRecord, decide (key b ≤ key a) = true →
      decide (key c ≤ key b) = true → decide (key c ≤ key a) = true := by
  intro a b c h1 h2
  simp only [decide_eq_true_eq] at h1 h2 ⊢
  exact le_trans h2 h1

theorem descLe_total (key : HistRecord → Int) :
    ∀ a b : HistRecord, (decide (key b ≤ key a) || decide (key a ≤ key b)) = true := by
  intro a b
  rcases le_total (key a) (key b) with h | h <;> simp [h]

theorem sortListTuple_pairwise (li : List HistRecord) (key : HistRecord → Int) :
    List.Pairwise (fun a b => key b ≤ key a) (sortListTuple li key) := by
  have h := @List.sorted_mergeSort HistRecord (fun a b => decide (key b ≤ key a))
    (descLe_trans key) (descLe_total key) li
  refine h.imp ?_
  intro a b hab
  simpa using hab

theorem sortListTuple_perm (li : List HistRecord) (key : HistRecord → Int) :
    (sortListTuple li key).Perm li :=
  List.mergeSort_perm li _

theorem pairwise_of_all_key_eq {c : List HistRecord} (key : HistRecord → Int)
    (k : Int) (h : ∀ a ∈ c, key a = k) :
    List.Pairwise (fun a b => decide (key b ≤ key a) = true) c := by
  induction c with
  | nil => simp
  | cons x xs ih =>
    refine List.Pairwise.cons ?_ (ih fun a ha => h a (List.mem_cons_of_mem _ ha))
    intro b hb
    have h1 := h x (List.mem_cons_self x xs)
    have h2 := h b (List.mem_cons_of_mem _ hb)
    simp [h1, h2]

/-- The spec-modelled sort is stable: the subsequence of records with any
fixed key value is exactly its subsequence in the input, in input order. -/
theorem sortListTuple_stable (li : List HistRecord) (key : HistRecord → Int)
    (k : Int) :
    (sortListTuple li key).filter (fun r => decide (key r = k)) =
      li.filter (fun r => decide (key r = k)) := by
  have hall : ∀ a ∈ li.filter (fun r => decide (key r = k)), key a = k := by
    intro a ha
    have := (List.mem_filter.mp ha).2
    simpa using this
  have hsub : (li.filter (fun r => decide (key r = k))).Sublist (sortListTuple li key) :=
    List.sublist_mergeSort (descLe_trans key) (descLe_total key)
      (pairwise_of_all_key_eq key k hall) (List.filter_sublist li)
  have hsub2 := hsub.filter (fun r => decide (key r = k))
  rw [List.filter_filter] at hsub2
  have hsame : (li.filter (fun r => decide (key r = k) && decide (key r = k))) =
      li.filter (fun r => decide (key r = k)) := by
    refine List.filter_congr ?_
    intro a _
    cases hdec : decide (key a = k) <;> simp [hdec]
  rw [hsame] at hsub2
  have hperm := (sortListTuple_perm li key).filter (fun r => decide (key r = k))
  exact (hsub2.eq_of_length (hperm.length_eq.symm)).symm

/-- The post-match pipeline of main in chrom_bookmarks.py: the matched rows
are deduplicated and then emitted directly — there is no sort stage and no
truncation stage in the bookmark pipeline. -/
def bookmarksPipeline (merged : List BmRecord) : List BmRecord :=
  removeDuplicatesBm merged

/-- A family of pairwise distinct bookmark rows. -/
def bmRow (i : Nat) : BmRecord :=
  ⟨String.mk (List.replicate i 'a'), "u", "chrome", "Default", none⟩

/-- 31 pairwise distinct bookmark rows. -/
def bmRows31 : List BmRecord := (List.range 31).map bmRow

/-- C6 counterexample: the bookmark pipeline emits all 31 of 31 distinct
matched records — it does not truncate to the top 30 (and sorts nothing),
so the claimed sort-then-truncate behavior does not hold for the bookmark
half of the claim. -/
theorem C6_counterexample :
    (bookmarksPipeline bmRows31).length = 31 ∧
    ¬ (bookmarksPipeline bmRows31).length ≤ 30 := by
  decide

/-- C6 (amended): the HISTORY pipeline sorts descending by last_visit when
recent-ranking is configured and by visit_count otherwise, with a stable
sort (records with equal keys keep their input order), and truncates to 30
only after sorting: the output is always descending in the configured key
and at most 30 long, and for inputs with pairwise distinct (url, title)
keys and pairwise distinct visit counts, recent-mode off, empty query under
default AND and no ignore list, it is exactly the min(30, n)
highest-visit-count records in descending order.  The BOOKMARK pipeline, by
contrast, neither sorts nor truncates (see the counterexample). -/
theorem C6_sort_truncate :
    (∀ (merged : List HistRecord) (query : String) (d : Bool)
        (ign : Option (List String)) (sr : Bool),
        List.Pairwise (fun a b => histSortKey sr b ≤ histSortKey sr a)
          (get_histories merged query d ign sr) ∧
        (get_histories merged query d ign sr).length ≤ 30) ∧
    (∀ (li : List HistRecord) (key : HistRecord → Int) (k : Int),
        (sortListTuple li key).filter (fun r => decide (key r = k)) =
          li.filter (fun r => decide (key r = k))) ∧
    (∀ merged : List HistRecord,
        (merged.map histKey).Nodup →
        (merged.map (fun r => r.visitCount)).Nodup →
        (get_histories merged "" true none false).length = min 30 merged.length ∧
        ∀ x ∈ get_histories merged "" true none false,
          x ∈ merged ∧
          ∀ y ∈ merged, y ∉ get_histories merged "" true none false →
            histSortKey false y < histSortKey false x) := by
  refine ⟨?_, sortListTuple_stable, ?_⟩
  · intro merged query d ign sr
    constructor
    · exact List.Pairwise.sublist (List.take_sublist 30 _)
        (sortListTuple_pairwise
          (applyIgnored (removeDuplicates
            (search_in_tuples_with_profile merged query d)) ign) (histSortKey sr))
    · exact List.length_take_le 30 _
  · intro merged hkeys hcounts
    have hchain : get_histories merged "" true none false =
        (sortListTuple merged (histSortKey false)).take 30 := by
      unfold get_histories
      simp only [search_empty_and, removeDuplicates_of_nodup hkeys, applyIgnored]
    set s := sortListTuple merged (histSortKey false) with hs
    have hperm : s.Perm merged := sortListTuple_perm merged (histSortKey false)
    constructor
    · rw [hchain, List.length_take, hperm.length_eq]
    · intro x hx
      rw [hchain] at hx
      have hxs : x ∈ s := List.Sublist.mem hx (List.take_sublist 30 s)
      have hxm : x ∈ merged := hperm.mem_iff.mp hxs
      refine ⟨hxm, ?_⟩
      intro y hy hynot
      rw [hchain] at hynot
      have hys : y ∈ s := hperm.mem_iff.mpr hy
      have hysplit : y ∈ s.take 30 ++ s.drop 30 := by
        rw [List.take_append_drop]
        exact hys
      have hydrop : y ∈ s.drop 30 := by
        rcases List.mem_append.mp hysplit with h | h
        · exact absurd h hynot
        · exact h
      have hp : List.Pairwise (fun a b => histSortKey false b ≤ histSortKey false a) s :=
        sortListTuple_pairwise merged (histSortKey false)
      have hp2 : List.Pairwise (fun a b => histSortKey false b ≤ histSortKey false a)
          (s.take 30 ++ s.drop 30) := by
        rw [List.take_append_drop]
        exact hp
      have hle : histSortKey false y ≤ histSortKey false x :=
        (List.pairwise_append.mp hp2).2.2 x hx y hydrop
      have hxy : x ≠ y := by
        intro hh
        exact hynot (hh ▸ hx)
      have hne : histSortKey false y ≠ histSortKey false x := by
        intro hh
        have hcnt : y.visitCount = x.visitCount := by
          have := hh
          simp only [histSortKey, if_neg Bool.false_ne_true] at this
          exact_mod_cast this
        exact hxy (List.inj_on_of_nodup_map hcounts hxm hy hcnt.symm)
      exact lt_of_le_of_ne hle hne

/-- Two history rows with distinct keys and distinct visit counts. -/
def rowSortA : HistRecord := ⟨"https://a.com", "A", 1, 10, "chrome", "Default", none⟩

/-- A second row for the sort witness. -/
def rowSortB : HistRecord := ⟨"https://b.com", "B", 2, 5, "chrome", "Default", none⟩

/-- Witness for C6_sort_truncate at a concrete two-record input. -/
theorem C6_witness :
    (get_histories [rowSortA, rowSortB] "" true none false).length =
      min 30 [rowSortA, rowSortB].length :=
  (C6_sort_truncate.2.2 [rowSortA, rowSortB] (by decide) (by decide)).1

/-! ### get_all_urls of chrom_bookmarks.py -/

/-- A node of the Chromium JSON bookmark tree as get_all_urls consumes it:
a dict whose type is url (carrying name and url), a dict whose type is
folder (carrying a children list), or any other value, which extract_data
ignores. -/
inductive BmNode where
  | url (name link : String)
  | folder (name : String) (children : List BmNode)
  | other

mutual

/-- extract_data inside get_all_urls: a url node appends its (name, url)
pair, a folder node recurses into its children through get_container. -/
def extract_data : BmNode → List (String × String)
  | BmNode.url n u => [(n, u)]
  | BmNode.folder _ ch => get_container ch
  | BmNode.other => []

/-- get_container inside get_all_urls, applied to a list of nodes.  The
source also accepts a dict and iterates its values; that values list is the
argument here, which is exactly how the top-level roots dict is consumed. -/
def get_container : List BmNode → List (String × String)
  | [] => []
  | x :: xs => extract_data x ++ get_container xs

end

/-- get_all_urls of chrom_bookmarks.py: walk the roots container collecting
every url node, then sort ascending by name with the stable Python sorted
(embedded as a stable merge sort on the name component). -/
def get_all_urls (roots : List BmNode) : List (String × String) :=
  (get_container roots).mergeSort (fun a b => decide (a.1 ≤ b.1))

mutual

/-- The number of url-typed nodes reachable from one node, counted
independently of the walk. -/
def urlCount : BmNode → Nat
  | BmNode.url _ _ => 1
  | BmNode.folder _ ch => urlCountList ch
  | BmNode.other => 0

/-- The number of url-typed nodes reachable from a node list. -/
def urlCountList : List BmNode → Nat
  | [] => 0
  | x :: xs => urlCount x + urlCountList xs

end

mutual

theorem extract_length : ∀ n : BmNode, (extract_data n).length = urlCount n
  | BmNode.url _ _ => rfl
  | BmNode.folder _ ch => by
      simp only [extract_data, urlCount]
      exact container_length ch
  | BmNode.other => rfl

theorem container_length :
    ∀ l : List BmNode, (get_container l).length = urlCountList l
  | [] => rfl
  | x :: xs => by
      simp only [get_container, urlCountList, List.length_append]
      rw [extract_length x, container_length xs]

end

theorem nameLe_trans : ∀ a b c : String × String,
    decide (a.1 ≤ b.1) = true → decide (b.1 ≤ c.1) = true →
    decide (a.1 ≤ c.1) = true := by
  intro a b c h1 h2
  simp only [decide_eq_true_eq] at h1 h2 ⊢
  exact le_trans h1 h2

theorem nameLe_total : ∀ a b : String × String,
    (decide (a.1 ≤ b.1) || decide (b.1 ≤ a.1)) = true := by
  intro a b
  rcases le_total a.1 b.1 with h | h <;> simp [h]

/-- C10: get_all_urls emits exactly the url nodes the walk reaches (one pair
per url node, counted by urlCountList; recursion descends into folder
children), as a permutation of the walk order, and its output is sorted
ascending by name. -/
theorem C10_get_all_urls :
    ∀ roots : List BmNode,
      (get_all_urls roots).Perm (get_container roots) ∧
      List.Pairwise (fun a b : String × String => a.1 ≤ b.1) (get_all_urls roots) ∧
      (get_all_urls roots).length = urlCountList roots := by
  intro roots
  refine ⟨List.mergeSort_perm _ _, ?_, ?_⟩
  · have h := @List.sorted_mergeSort (String × String)
      (fun a b => decide (a.1 ≤ b.1)) nameLe_trans nameLe_total (get_container roots)
    refine h.imp ?_
    intro a b hab
    simpa using hab
  · rw [get_all_urls, List.length_mergeSort, container_length]

end ChromCore
